import Mathlib

/-!
Formal model of the donut bot (`src/donutbot/bot.py`).

The Python module partitions a list of chat members into random subgroups
(a "donut"), detects whether two donuts share a subgroup, retries generation
once against the previous round, and runs a propose/confirm workflow over
per-room state.  Pure functions are translated directly; the shuffle performed
by `_generate_donut` is modelled by quantifying theorems over every input
list (every shuffle outcome is some input list), and the `while` loop is
modelled with an explicit fuel parameter so that its non-termination for
non-positive group sizes is expressible.
-/

/-- Mirrors the Python `SimpleMember` named tuple: a display name and a
Matrix user id. -/
structure SimpleMember where
  display_name : String
  mxid : String
  deriving DecidableEq

/-- Mirrors `Donut = NewType("Donut", Set[FrozenSet[SimpleMember]])`. -/
abbrev Donut : Type := Finset (Finset SimpleMember)

/-- Step-indexed model of the `while len(random_list) > 0` loop of
`_generate_donut` (bot.py lines 220-228).  Each iteration pops
`min(group_size, len(random_list))` members off the end of the list into a
fresh group; if the remaining pool is non-empty and of size at most
`floor(group_size / 2)` the remainder is folded into that group and the pool
is cleared.  `none` means the loop did not finish within `fuel` iterations. -/
def generateDonutFuel : Nat → List SimpleMember → Int → Donut → Option Donut
  | 0, _, _, _ => none
  | fuel + 1, random_list, group_size, donut =>
    if 0 < random_list.length then
      let kn : Nat := (min group_size (random_list.length : Int)).toNat
      let group : List SimpleMember := random_list.drop (random_list.length - kn)
      let rest : List SimpleMember := random_list.take (random_list.length - kn)
      if 0 < rest.length ∧ (rest.length : Int) ≤ Int.fdiv group_size 2 then
        generateDonutFuel fuel [] group_size (insert (group ++ rest).toFinset donut)
      else
        generateDonutFuel fuel rest group_size (insert group.toFinset donut)
    else
      some donut

/-- Model of `_generate_donut` applied to the already-shuffled member list
(`random.shuffle` is modelled by quantifying over all input lists).  The fuel
`length + 1` is enough for every positive group size, and theorems below show
the result does not depend on the exact fuel once it is sufficient. -/
def generate_donut (member_list : List SimpleMember) (group_size : Int) : Option Donut :=
  generateDonutFuel (member_list.length + 1) member_list group_size ∅

/-- One step of the `for group in d1: if group in d2: return True` loop of
`_are_donuts_overlapping` (bot.py lines 230-234). -/
def overlapStep (d2 : Donut) (group : Finset SimpleMember) (acc : Bool) : Bool :=
  decide (group ∈ d2) || acc

instance (d2 : Donut) : LeftCommutative (overlapStep d2) :=
  ⟨fun a b c => by simp [overlapStep, Bool.or_left_comm]⟩

/-- Model of `_are_donuts_overlapping`: fold the membership test over the
groups of `d1` (the early `return True` of the Python loop is the boolean
or). -/
def are_donuts_overlapping (d1 d2 : Donut) : Bool :=
  Multiset.foldr (overlapStep d2) false d1.val

/-- Model of the retry `for _ in range(10)` loop in `DonutBot.new`
(bot.py lines 139-142): while iterations remain, if the previous donut
overlaps the candidate, regenerate once and `break` (the regenerated donut is
returned without any further check); otherwise the check is repeated on the
unchanged candidate until the range is exhausted. -/
def newLoopGen (last_donut : Donut) (regen : Option Donut) :
    Nat → Donut → Option Donut
  | 0, new_donut => some new_donut
  | n + 1, new_donut =>
    if are_donuts_overlapping last_donut new_donut then regen
    else newLoopGen last_donut regen n new_donut

/-- Model of the donut computation of the `new` command (bot.py lines
133-143): generate a candidate from the (shuffled) member list `members1`;
when a last donut exists, run the retry loop, whose single regeneration uses
the second shuffle outcome `members2`.  `none` models non-termination of
`_generate_donut`. -/
def newDonut (members1 members2 : List SimpleMember) (group_size : Int)
    (last_donut : Option Donut) : Option Donut :=
  (generate_donut members1 group_size).bind fun new_donut =>
    match last_donut with
    | none => some new_donut
    | some ld => newLoopGen ld (generate_donut members2 group_size) 10 new_donut

/-- Model of the donut computation of the `sample` command (bot.py lines
189-192), which passes the parsed `group_size` to `_generate_donut` with no
validation. -/
def sample_donut (members : List SimpleMember) (group_size : Int) : Option Donut :=
  generate_donut members group_size

/-- Mirrors `DonutStateEventContent` (bot.py lines 29-32): the per-room state
event with two optional donut fields. -/
structure DonutStateEventContent where
  last_donut : Option Donut
  current_donut : Option Donut
  deriving DecidableEq

/-- Python truthiness of an optional (deserialized) donut: a missing field
and an empty donut are both falsy, as in `if last_donut:` (bot.py line 63),
`if current_donut:` (line 71), `if old_donut:` (line 80) and
`if (proposed_donut):` (line 150). -/
def truthyDonut : Option Donut → Option Donut
  | none => none
  | some d => if d = ∅ then none else some d

/-- The state of one room as seen by the bot: the persisted donut state event
(absent until first written, as in `get_donut_state` returning `None` on
`MNotFound`) and this room's entry in the in-memory `proposed_donuts` map. -/
structure GroupState where
  donut_state : Option DonutStateEventContent
  proposed : Option Donut
  deriving DecidableEq

/-- Model of `get_current_donut` (bot.py lines 67-73): read the state event
and return the `current_donut` field when it is truthy. -/
def get_current_donut (s : GroupState) : Option Donut :=
  match s.donut_state with
  | none => none
  | some ds => truthyDonut ds.current_donut

/-- Model of `get_last_donut` (bot.py lines 59-65): read the state event and
return the `last_donut` field when it is truthy. -/
def get_last_donut (s : GroupState) : Option Donut :=
  match s.donut_state with
  | none => none
  | some ds => truthyDonut ds.last_donut

/-- Model of `set_current_donut` (bot.py lines 75-85): build the state event
content that `send_state_event` writes.  Starting from the stored event (or a
fresh empty one), the old current donut is copied into `last_donut` only when
it is truthy, and `current_donut` is replaced. -/
def set_current_donut (donut : Donut) (s : GroupState) : DonutStateEventContent :=
  let ds := s.donut_state.getD ⟨none, none⟩
  let ds1 :=
    match get_current_donut s with
    | some old => { ds with last_donut := some old }
    | none => ds
  { ds1 with current_donut := some donut }

/-- Model of `self.proposed_donuts[room_id] = new_donut` in `DonutBot.new`
(bot.py line 143). -/
def set_proposed (donut : Donut) (s : GroupState) : GroupState :=
  { s with proposed := some donut }

/-- The message branch taken by `DonutBot.confirm`. -/
inductive ConfirmResult where
  | success
  | noProposal
  | persistError
  | inviteError
  deriving DecidableEq

/-- Result of one `confirm` command: the branch taken, the room state
afterwards, the state events durably written, and the donuts for which
invitation side effects were dispatched. -/
structure ConfirmOutcome where
  result : ConfirmResult
  state : GroupState
  persist_writes : List DonutStateEventContent
  invites : List Donut
  deriving DecidableEq

/-- Model of `DonutBot.confirm` (bot.py lines 146-169).  `persistOk` tells
whether `set_current_donut`'s state-event write succeeds, `inviteOk` whether
`invite_users_to_donut` succeeds; either exception aborts the handler at the
corresponding `return`.  Note the Python truthiness test `if
(proposed_donut):` sends both a missing and an empty proposal to the
"No DONUT currently proposed" branch, and that `proposed_donuts.pop` runs
only after the invitations succeeded. -/
def confirm (persistOk inviteOk : Bool) (s : GroupState) : ConfirmOutcome :=
  match s.proposed with
  | none => ⟨.noProposal, s, [], []⟩
  | some proposed_donut =>
    if proposed_donut = ∅ then ⟨.noProposal, s, [], []⟩
    else if persistOk = false then ⟨.persistError, s, [], []⟩
    else
      let ds := set_current_donut proposed_donut s
      let s1 : GroupState := { s with donut_state := some ds }
      if inviteOk = false then ⟨.inviteError, s1, [ds], [proposed_donut]⟩
      else ⟨.success, { s1 with proposed := none }, [ds], [proposed_donut]⟩

/-- States whose persisted fields could have been produced by the bot's own
operations: a previous round is visible only when a current round is.  Every
state reachable through `set_proposed` and `confirm` satisfies this. -/
def StateInv (s : GroupState) : Prop :=
  get_current_donut s = none → get_last_donut s = none

/-- Proof device: the list of member chunks produced by the `_generate_donut`
loop for a positive group size `gsn`, in pop order.  Each chunk is the block
of `min gsn (length rl)` members taken from the end of the pool, with the
remainder folded into the final chunk exactly when it is non-empty and of
size at most `gsn / 2`.  (The `gsn = 0` guard is never reached when this
device is used: the faithful model of the loop is `generateDonutFuel`, shown
below to agree with this function whenever the group size is positive.) -/
def chunkGroups (gsn : Nat) (rl : List SimpleMember) : List (List SimpleMember) :=
  if _h0 : rl.length = 0 then []
  else if _hg : gsn = 0 then []
  else if 0 < (rl.take (rl.length - min gsn rl.length)).length ∧
      (rl.take (rl.length - min gsn rl.length)).length ≤ gsn / 2 then
    [rl.drop (rl.length - min gsn rl.length) ++ rl.take (rl.length - min gsn rl.length)]
  else
    rl.drop (rl.length - min gsn rl.length) ::
      chunkGroups gsn (rl.take (rl.length - min gsn rl.length))
termination_by rl.length
decreasing_by
  simp only [List.length_take]
  omega

/-- The donut assembled from a list of chunks. -/
def donutOfChunks (chunks : List (List SimpleMember)) : Donut :=
  (chunks.map List.toFinset).toFinset

/-- A concrete member, used by witnesses and counterexamples. -/
def alice : SimpleMember := ⟨"Alice", "@alice:example.org"⟩

/-- A concrete member, used by witnesses and counterexamples. -/
def bob : SimpleMember := ⟨"Bob", "@bob:example.org"⟩

/-- A concrete member, used by witnesses and counterexamples. -/
def carol : SimpleMember := ⟨"Carol", "@carol:example.org"⟩

theorem generateDonutFuel_eq_chunkGroups (gs : Int) (hgs : 1 ≤ gs) :
    ∀ (rl : List SimpleMember) (fuel : Nat) (acc : Donut), rl.length < fuel →
      generateDonutFuel fuel rl gs acc =
        some (donutOfChunks (chunkGroups gs.toNat rl) ∪ acc) := by
  obtain ⟨m, rfl⟩ : ∃ m : Nat, gs = (m : Int) :=
    ⟨gs.toNat, (Int.toNat_of_nonneg (by omega)).symm⟩
  have hm : m ≠ 0 := by omega
  have hfd : Int.fdiv (m : Int) 2 = ((m / 2 : Nat) : Int) := (Int.ofNat_fdiv m 2).symm
  have htoNat : ((m : Int)).toNat = m := by omega
  simp only [htoNat]
  intro rl
  induction rl using chunkGroups.induct m with
  | case1 rl h0 =>
    intro fuel acc hfuel
    obtain ⟨f, rfl⟩ : ∃ f, fuel = f + 1 := ⟨fuel - 1, by omega⟩
    rw [chunkGroups]
    simp [generateDonutFuel, donutOfChunks, h0]
  | case2 rl h0 hg => exact absurd hg hm
  | case3 rl h0 hg hcond =>
    intro fuel acc hfuel
    obtain ⟨f1, rfl⟩ : ∃ f1, fuel = f1 + 2 := ⟨fuel - 2, by omega⟩
    have hkn : ((min (m : Int) (rl.length : Int))).toNat = min m rl.length := by omega
    have hrest : (rl.take (rl.length - min m rl.length)).length
        = rl.length - min m rl.length := by
      simp [List.length_take]
    rw [generateDonutFuel]
    rw [if_pos (by omega), hkn]
    rw [if_pos (by rw [hfd]; exact ⟨hcond.1, by exact_mod_cast hcond.2⟩)]
    rw [generateDonutFuel]
    rw [if_neg (by simp)]
    rw [chunkGroups]
    rw [dif_neg h0, dif_neg hm, if_pos hcond]
    simp [donutOfChunks, Finset.insert_eq]
  | case4 rl h0 hg hcond ih =>
    intro fuel acc hfuel
    obtain ⟨f, rfl⟩ : ∃ f, fuel = f + 1 := ⟨fuel - 1, by omega⟩
    have hkn : ((min (m : Int) (rl.length : Int))).toNat = min m rl.length := by omega
    have hrest : (rl.take (rl.length - min m rl.length)).length
        = rl.length - min m rl.length := by
      simp [List.length_take]
    rw [generateDonutFuel]
    rw [if_pos (by omega), hkn]
    rw [if_neg (by rw [hfd]; intro hc; exact hcond ⟨hc.1, by exact_mod_cast hc.2⟩)]
    rw [chunkGroups]
    rw [dif_neg h0, dif_neg hm, if_neg hcond]
    rw [ih f (insert (rl.drop (rl.length - min m rl.length)).toFinset acc) (by omega)]
    simp only [donutOfChunks, List.map_cons, List.toFinset_cons]
    rw [Finset.insert_union, Finset.union_insert]

theorem chunkGroups_flatten_perm (gsn : Nat) (hg : gsn ≠ 0) :
    ∀ rl : List SimpleMember, (chunkGroups gsn rl).flatten.Perm rl := by
  intro rl
  induction rl using chunkGroups.induct gsn with
  | case1 rl h0 =>
    rw [chunkGroups, dif_pos h0]
    simp [List.eq_nil_of_length_eq_zero h0]
  | case2 rl h0 hgg => exact absurd hgg hg
  | case3 rl h0 hgg hcond =>
    rw [chunkGroups, dif_neg h0, dif_neg hgg, if_pos hcond]
    simp only [List.flatten_cons, List.flatten_nil, List.append_nil]
    exact List.perm_append_comm.trans
      (by rw [List.take_append_drop])
  | case4 rl h0 hgg hcond ih =>
    rw [chunkGroups, dif_neg h0, dif_neg hgg, if_neg hcond]
    simp only [List.flatten_cons]
    refine ((ih.append_left _).trans List.perm_append_comm).trans ?_
    rw [List.take_append_drop]

theorem nodup_of_mem_of_flatten_nodup {L : List (List SimpleMember)}
    (h : L.flatten.Nodup) : ∀ c ∈ L, c.Nodup :=
  (List.nodup_flatten.mp h).1

theorem eq_of_mem_mem_of_flatten_nodup {L : List (List SimpleMember)}
    (h : L.flatten.Nodup) {m : SimpleMember} :
    ∀ c1 ∈ L, ∀ c2 ∈ L, m ∈ c1 → m ∈ c2 → c1 = c2 := by
  induction L with
  | nil => intro c1 hc1; simp at hc1
  | cons a L ih =>
    rw [List.flatten_cons, List.nodup_append] at h
    intro c1 hc1 c2 hc2 hm1 hm2
    have hd : List.Disjoint a L.flatten := h.2.2
    rcases List.mem_cons.mp hc1 with h1 | h1 <;> rcases List.mem_cons.mp hc2 with h2 | h2
    · rw [h1, h2]
    · exact absurd (List.mem_flatten.mpr ⟨c2, h2, hm2⟩) (hd (h1 ▸ hm1))
    · exact absurd (List.mem_flatten.mpr ⟨c1, h1, hm1⟩) (hd (h2 ▸ hm2))
    · exact ih h.2.1 c1 h1 c2 h2 hm1 hm2

theorem chunkGroups_ne_nil_of_mem (gsn : Nat) (hg : gsn ≠ 0) :
    ∀ rl : List SimpleMember, ∀ c ∈ chunkGroups gsn rl, c ≠ [] := by
  intro rl
  induction rl using chunkGroups.induct gsn with
  | case1 rl h0 => rw [chunkGroups, dif_pos h0]; intro c hc; simp at hc
  | case2 rl h0 hgg => exact absurd hgg hg
  | case3 rl h0 hgg hcond =>
    rw [chunkGroups, dif_neg h0, dif_neg hgg, if_pos hcond]
    intro c hc hnil
    rw [List.mem_singleton] at hc
    subst hc
    have hd : (rl.drop (rl.length - min gsn rl.length)).length = 0 := by
      rw [(List.append_eq_nil.mp hnil).1]
      rfl
    rw [List.length_drop] at hd
    omega
  | case4 rl h0 hgg hcond ih =>
    rw [chunkGroups, dif_neg h0, dif_neg hgg, if_neg hcond]
    intro c hc
    rcases List.mem_cons.mp hc with h1 | h1
    · subst h1
      intro hnil
      have hd : (rl.drop (rl.length - min gsn rl.length)).length = 0 := by
        rw [hnil]
        rfl
      rw [List.length_drop] at hd
      omega
    · exact ih c h1

theorem chunkGroups_dropLast_length (gsn : Nat) (hg : gsn ≠ 0) :
    ∀ rl : List SimpleMember, ∀ c ∈ (chunkGroups gsn rl).dropLast, c.length = gsn := by
  intro rl
  induction rl using chunkGroups.induct gsn with
  | case1 rl h0 => rw [chunkGroups, dif_pos h0]; intro c hc; simp at hc
  | case2 rl h0 hgg => exact absurd hgg hg
  | case3 rl h0 hgg hcond =>
    rw [chunkGroups, dif_neg h0, dif_neg hgg, if_pos hcond]
    intro c hc
    simp at hc
  | case4 rl h0 hgg hcond ih =>
    rw [chunkGroups, dif_neg h0, dif_neg hgg, if_neg hcond]
    intro c hc
    by_cases hrest : rl.take (rl.length - min gsn rl.length) = []
    · rw [hrest] at hc
      rw [chunkGroups] at hc
      simp at hc
    · have hne : chunkGroups gsn (rl.take (rl.length - min gsn rl.length)) ≠ [] := by
        rw [chunkGroups]
        rw [dif_neg (fun hz => hrest (List.eq_nil_of_length_eq_zero hz)), dif_neg hg]
        split <;> simp
      rw [List.dropLast_cons_of_ne_nil hne] at hc
      rcases List.mem_cons.mp hc with h1 | h1
      · subst h1
        have hlt : rl.length - min gsn rl.length ≠ 0 := by
          intro hz
          exact hrest (by simp [List.take_eq_nil_iff]; omega)
        simp [List.length_drop]
        omega
      · exact ih c h1

theorem chunkGroups_min_length (gsn : Nat) (hg : gsn ≠ 0) :
    ∀ rl : List SimpleMember, (rl.length = 0 ∨ gsn / 2 < rl.length) →
      ∀ c ∈ chunkGroups gsn rl, gsn / 2 < c.length := by
  intro rl
  induction rl using chunkGroups.induct gsn with
  | case1 rl h0 =>
    intro _ c hc
    rw [chunkGroups, dif_pos h0] at hc
    simp at hc
  | case2 rl h0 hgg => exact absurd hgg hg
  | case3 rl h0 hgg hcond =>
    intro hinv c hc
    rw [chunkGroups, dif_neg h0, dif_neg hgg, if_pos hcond] at hc
    rw [List.mem_singleton] at hc
    subst hc
    simp only [List.length_take] at hcond
    simp only [List.length_append, List.length_drop, List.length_take]
    omega
  | case4 rl h0 hgg hcond ih =>
    intro hinv c hc
    rw [chunkGroups, dif_neg h0, dif_neg hgg, if_neg hcond] at hc
    rcases List.mem_cons.mp hc with h1 | h1
    · subst h1
      rw [List.length_drop]
      omega
    · refine ih ?_ c h1
      simp only [List.length_take] at hcond ⊢
      omega

theorem generate_donut_eq (gs : Int) (hgs : 1 ≤ gs) (l : List SimpleMember) :
    generate_donut l gs = some (donutOfChunks (chunkGroups gs.toNat l)) := by
  rw [generate_donut,
    generateDonutFuel_eq_chunkGroups gs hgs l (l.length + 1) ∅ (by omega)]
  simp

theorem mem_donutOfChunks {chunks : List (List SimpleMember)}
    {g : Finset SimpleMember} :
    g ∈ donutOfChunks chunks ↔ ∃ c ∈ chunks, c.toFinset = g := by
  simp [donutOfChunks]

/-- C1: for every list of participants with pairwise-distinct identities and
every `group_size ≥ 1`, the partitioner `_generate_donut` returns a true
partition of the input: every participant appears in exactly one subgroup of
the result (none omitted, none duplicated across subgroups), and the
subgroups contain only input participants. -/
theorem generate_donut_partition (l : List SimpleMember) (gs : Int)
    (hid : (l.map SimpleMember.mxid).Nodup) (hgs : 1 ≤ gs) :
    ∃ d : Donut, generate_donut l gs = some d ∧
      (∀ m ∈ l, ∃! g : Finset SimpleMember, g ∈ d ∧ m ∈ g) ∧
      (∀ g ∈ d, ∀ m ∈ g, m ∈ l) := by
  have hnd : l.Nodup := hid.of_map
  have hg0 : gs.toNat ≠ 0 := by omega
  have hperm := chunkGroups_flatten_perm gs.toNat hg0 l
  have hfn : (chunkGroups gs.toNat l).flatten.Nodup := hperm.nodup_iff.mpr hnd
  refine ⟨donutOfChunks (chunkGroups gs.toNat l), generate_donut_eq gs hgs l, ?_, ?_⟩
  · intro m hm
    obtain ⟨c, hc, hmc⟩ := List.mem_flatten.mp (hperm.mem_iff.mpr hm)
    refine ⟨c.toFinset,
      ⟨mem_donutOfChunks.mpr ⟨c, hc, rfl⟩, List.mem_toFinset.mpr hmc⟩, ?_⟩
    rintro g ⟨hgd, hmg⟩
    obtain ⟨c2, hc2, rfl⟩ := mem_donutOfChunks.mp hgd
    rw [eq_of_mem_mem_of_flatten_nodup hfn c2 hc2 c hc (List.mem_toFinset.mp hmg) hmc]
  · intro g hgd m hmg
    obtain ⟨c, hc, rfl⟩ := mem_donutOfChunks.mp hgd
    exact hperm.mem_iff.mp (List.mem_flatten.mpr ⟨c, hc, List.mem_toFinset.mp hmg⟩)

/-- Witness for C1 at the concrete input `[alice, bob, carol]`, `group_size
2`. -/
theorem generate_donut_partition_witness :
    ([alice, bob, carol].map SimpleMember.mxid).Nodup ∧ (1:Int) ≤ 2 ∧
      (∃ d : Donut, generate_donut [alice, bob, carol] 2 = some d ∧
        (∀ m ∈ [alice, bob, carol], ∃! g : Finset SimpleMember, g ∈ d ∧ m ∈ g) ∧
        (∀ g ∈ d, ∀ m ∈ g, m ∈ [alice, bob, carol])) :=
  ⟨by decide, by decide,
    generate_donut_partition [alice, bob, carol] 2 (by decide) (by decide)⟩

/-- C6: for every list of distinct participants and every `group_size ≥ 1`,
in the partition returned by `_generate_donut` no subgroup is empty, at most
one subgroup has size different from `group_size`, and remainder folding
leaves no subgroup of size at most `floor(group_size / 2)` whenever the
participant count exceeds `group_size`. -/
theorem generate_donut_subgroup_sizes (l : List SimpleMember) (gs : Int)
    (hnd : l.Nodup) (hgs : 1 ≤ gs) :
    ∃ d : Donut, generate_donut l gs = some d ∧
      (∀ g ∈ d, 0 < g.card) ∧
      (∀ g1 ∈ d, ∀ g2 ∈ d,
        (g1.card : Int) ≠ gs → (g2.card : Int) ≠ gs → g1 = g2) ∧
      (gs < (l.length : Int) → ∀ g ∈ d, Int.fdiv gs 2 < (g.card : Int)) := by
  obtain ⟨m, rfl⟩ : ∃ m : Nat, gs = (m : Int) :=
    ⟨gs.toNat, (Int.toNat_of_nonneg (by omega)).symm⟩
  have hm : m ≠ 0 := by omega
  have htoNat : ((m : Int)).toNat = m := by omega
  have hfd : Int.fdiv (m : Int) 2 = ((m / 2 : Nat) : Int) := (Int.ofNat_fdiv m 2).symm
  have hperm := chunkGroups_flatten_perm m hm l
  have hfn : (chunkGroups m l).flatten.Nodup := hperm.nodup_iff.mpr hnd
  have hcard : ∀ c ∈ chunkGroups m l, c.toFinset.card = c.length := fun c hc =>
    List.toFinset_card_of_nodup (nodup_of_mem_of_flatten_nodup hfn c hc)
  refine ⟨donutOfChunks (chunkGroups m l), by rw [generate_donut_eq _ hgs, htoNat],
    ?_, ?_, ?_⟩
  · intro g hg
    obtain ⟨c, hc, rfl⟩ := mem_donutOfChunks.mp hg
    rw [hcard c hc]
    exact List.length_pos.mpr (chunkGroups_ne_nil_of_mem m hm l c hc)
  · intro g1 hg1 g2 hg2 hne1 hne2
    obtain ⟨c1, hc1, rfl⟩ := mem_donutOfChunks.mp hg1
    obtain ⟨c2, hc2, rfl⟩ := mem_donutOfChunks.mp hg2
    have hnenil : chunkGroups m l ≠ [] := List.ne_nil_of_mem hc1
    have hsplit := List.dropLast_append_getLast hnenil
    have hlast : ∀ c ∈ chunkGroups m l, c.length ≠ m →
        c = (chunkGroups m l).getLast hnenil := by
      intro c hc hlc
      have hc2 := hc
      rw [← hsplit] at hc2
      rcases List.mem_append.mp hc2 with h | h
      · exact absurd (chunkGroups_dropLast_length m hm l c h) hlc
      · exact List.mem_singleton.mp h
    rw [hlast c1 hc1 (by rw [hcard c1 hc1] at hne1; omega),
      hlast c2 hc2 (by rw [hcard c2 hc2] at hne2; omega)]
  · intro hlt g hg
    obtain ⟨c, hc, rfl⟩ := mem_donutOfChunks.mp hg
    have := chunkGroups_min_length m hm l (by omega) c hc
    rw [hcard c hc, hfd]
    exact_mod_cast this

/-- Witness for C6 at the concrete input `[alice, bob, carol]`, `group_size
2` (count 3 exceeds the group size, so the folding bound applies). -/
theorem generate_donut_subgroup_sizes_witness :
    ([alice, bob, carol].Nodup) ∧ (1:Int) ≤ 2 ∧
      (∃ d : Donut, generate_donut [alice, bob, carol] 2 = some d ∧
        (∀ g ∈ d, 0 < g.card) ∧
        (∀ g1 ∈ d, ∀ g2 ∈ d,
          (g1.card : Int) ≠ 2 → (g2.card : Int) ≠ 2 → g1 = g2) ∧
        ((2:Int) < (([alice, bob, carol] : List SimpleMember).length : Int) →
          ∀ g ∈ d, Int.fdiv 2 2 < (g.card : Int))) :=
  ⟨by decide, by decide,
    generate_donut_subgroup_sizes [alice, bob, carol] 2 (by decide) (by decide)⟩

/-- C9: degenerate inputs of `_generate_donut`: an empty participant list
yields the empty donut (for any group size), and a `group_size` at least the
participant count of a non-empty list yields the single subgroup containing
every participant. -/
theorem generate_donut_degenerate (l : List SimpleMember) (gs : Int) :
    generate_donut [] gs = some (∅ : Donut) ∧
    (l ≠ [] → (l.length : Int) ≤ gs →
      generate_donut l gs = some ({l.toFinset} : Donut)) := by
  constructor
  · rfl
  · intro hne hle
    have hlen : 0 < l.length := List.length_pos.mpr hne
    have hgs : 1 ≤ gs := by omega
    rw [generate_donut_eq gs hgs l]
    have hmin : min gs.toNat l.length = l.length := by omega
    rw [chunkGroups, dif_neg (by omega), dif_neg (by omega), hmin]
    rw [if_neg (by simp)]
    rw [Nat.sub_self, List.take_zero, List.drop_zero, chunkGroups]
    simp [donutOfChunks]

/-- Witness for C9 at the concrete input `[alice, bob]`, `group_size 3`. -/
theorem generate_donut_degenerate_witness :
    (([alice, bob] : List SimpleMember) ≠ []) ∧
      ((([alice, bob] : List SimpleMember).length : Int) ≤ 3) ∧
      generate_donut [] 3 = some (∅ : Donut) ∧
      generate_donut [alice, bob] 3 = some ({[alice, bob].toFinset} : Donut) :=
  ⟨by decide, by decide, (generate_donut_degenerate [alice, bob] 3).1,
    (generate_donut_degenerate [alice, bob] 3).2 (by decide) (by decide)⟩

/-- C5: `_are_donuts_overlapping` returns true exactly when some subgroup,
as a set of members, belongs to both donuts (subgroup set equality, not
pairwise participant overlap). -/
theorem are_donuts_overlapping_iff (d1 d2 : Donut) :
    are_donuts_overlapping d1 d2 = true ↔ ∃ g, g ∈ d1 ∧ g ∈ d2 := by
  rw [are_donuts_overlapping]
  have key : ∀ s : Multiset (Finset SimpleMember),
      Multiset.foldr (overlapStep d2) false s = true ↔ ∃ g ∈ s, g ∈ d2 := by
    intro s
    induction s using Multiset.induction_on with
    | empty => simp [Multiset.foldr_zero]
    | cons a s ih => simp [Multiset.foldr_cons, overlapStep, ih]
  rw [key d1.val]
  exact ⟨fun ⟨g, hg, hg2⟩ => ⟨g, hg, hg2⟩, fun ⟨g, hg, hg2⟩ => ⟨g, hg, hg2⟩⟩

theorem newLoopGen_no_overlap (ld : Donut) (regen : Option Donut) :
    ∀ n nd, are_donuts_overlapping ld nd = false →
      newLoopGen ld regen n nd = some nd := by
  intro n
  induction n with
  | zero => intro nd _; rfl
  | succ n ih =>
    intro nd h
    rw [newLoopGen, if_neg (by simp [h])]
    exact ih nd h

/-- C3: with a positive group size, the donut computation of `new` always
returns a donut; when a previous round exists and the first candidate
overlaps it, exactly one more candidate is generated and returned with no
further overlap check (so the result may still overlap the previous
round). -/
theorem new_round_retry (m1 m2 : List SimpleMember) (gs : Int)
    (last : Option Donut) (hgs : 1 ≤ gs) :
    ∃ c1 c2 : Donut, generate_donut m1 gs = some c1 ∧
      generate_donut m2 gs = some c2 ∧
      newDonut m1 m2 gs last = some (match last with
        | none => c1
        | some ld => if are_donuts_overlapping ld c1 then c2 else c1) := by
  refine ⟨donutOfChunks (chunkGroups gs.toNat m1),
    donutOfChunks (chunkGroups gs.toNat m2),
    generate_donut_eq gs hgs m1, generate_donut_eq gs hgs m2, ?_⟩
  cases last with
  | none =>
    rw [newDonut, generate_donut_eq gs hgs m1]
    rfl
  | some ld =>
    rw [newDonut, generate_donut_eq gs hgs m1, Option.some_bind]
    show newLoopGen ld (generate_donut m2 gs) 10 (donutOfChunks (chunkGroups gs.toNat m1)) =
      some (if are_donuts_overlapping ld (donutOfChunks (chunkGroups gs.toNat m1)) then
        donutOfChunks (chunkGroups gs.toNat m2)
      else donutOfChunks (chunkGroups gs.toNat m1))
    by_cases h : are_donuts_overlapping ld (donutOfChunks (chunkGroups gs.toNat m1)) = true
    · rw [if_pos h]
      show newLoopGen ld _ (9 + 1) _ = _
      rw [newLoopGen, if_pos h, generate_donut_eq gs hgs m2]
    · rw [Bool.not_eq_true] at h
      rw [newLoopGen_no_overlap ld _ 10 _ h, if_neg (by simp [h])]

/-- Witness for C3 at the two-member list with an overlapping previous
round: the only partition of two members at group size 2 is the pair itself,
so the retry fires and the (identical) regenerated donut is returned. -/
theorem new_round_retry_witness :
    (1:Int) ≤ 2 ∧
      (∃ c1 c2 : Donut, generate_donut [alice, bob] 2 = some c1 ∧
        generate_donut [alice, bob] 2 = some c2 ∧
        newDonut [alice, bob] [alice, bob] 2 (some {{alice, bob}}) =
          some (match (some {{alice, bob}} : Option Donut) with
            | none => c1
            | some ld => if are_donuts_overlapping ld c1 then c2 else c1)) :=
  ⟨by decide,
    new_round_retry [alice, bob] [alice, bob] 2 (some {{alice, bob}}) (by decide)⟩

theorem fdiv_two_nonpos_of_nonpos (gs : Int) (h : gs ≤ 0) : Int.fdiv gs 2 ≤ 0 := by
  cases gs with
  | ofNat n =>
    have hn : n = 0 := by rw [Int.ofNat_eq_coe] at h; omega
    subst hn
    exact le_refl 0
  | negSucc m =>
    show Int.negSucc (m / 2) ≤ 0
    rw [Int.negSucc_eq]
    omega

/-- C10: the `_generate_donut` loop terminates on every finite list when
`group_size ≥ 1` (any sufficient fuel yields the same donut), while for
`group_size ≤ 0` and a non-empty list no amount of fuel finishes the loop;
the `new` and `sample` command models pass the unvalidated group size
straight through, so the divergence (modelled as `none`) is reachable from
both commands. -/
theorem generate_donut_group_size_termination (l m2 : List SimpleMember)
    (gs : Int) (last : Option Donut) :
    (1 ≤ gs → ∀ fuel, l.length < fuel →
      generateDonutFuel fuel l gs ∅ = generate_donut l gs ∧
        (generate_donut l gs).isSome = true) ∧
    (gs ≤ 0 → l ≠ [] →
      (∀ fuel acc, generateDonutFuel fuel l gs acc = none) ∧
      newDonut l m2 gs last = none ∧ sample_donut l gs = none) := by
  constructor
  · intro hgs fuel hfuel
    rw [generateDonutFuel_eq_chunkGroups gs hgs l fuel ∅ hfuel,
      generate_donut_eq gs hgs l]
    simp
  · intro hgs hne
    have hlen : 0 < l.length := List.length_pos.mpr hne
    have key : ∀ fuel acc, generateDonutFuel fuel l gs acc = none := by
      intro fuel
      induction fuel with
      | zero => intro acc; rfl
      | succ fuel ih =>
        intro acc
        have hkn : (min gs (l.length : Int)).toNat = 0 := by omega
        rw [generateDonutFuel, if_pos hlen]
        simp only [hkn, Nat.sub_zero, List.take_length, List.drop_length]
        rw [if_neg (fun hc => absurd hc.2
          (by have := fdiv_two_nonpos_of_nonpos gs hgs; omega))]
        exact ih _
    have hgen : generate_donut l gs = none := key (l.length + 1) ∅
    refine ⟨key, ?_, ?_⟩
    · rw [newDonut, hgen]
      rfl
    · rw [sample_donut]
      exact hgen

/-- Witness for C10: one member with group size 2 terminates (any fuel past
the list length gives the same answer), while one member with group size 0
never finishes, and the divergence is reached through the models of the
`new` and `sample` commands. -/
theorem generate_donut_group_size_termination_witness :
    generateDonutFuel 40 [alice] 2 ∅ = generate_donut [alice] 2 ∧
      (generate_donut [alice] 2).isSome = true ∧
      generateDonutFuel 40 [alice] 0 ∅ = none ∧
      newDonut [alice] [] 0 none = none ∧
      sample_donut [alice] 0 = none :=
  ⟨((generate_donut_group_size_termination [alice] [] 2 none).1
      (by decide) 40 (by decide)).1,
    ((generate_donut_group_size_termination [alice] [] 2 none).1
      (by decide) 40 (by decide)).2,
    ((generate_donut_group_size_termination [alice] [] 0 none).2
      (by decide) (by decide)).1 40 ∅,
    ((generate_donut_group_size_termination [alice] [] 0 none).2
      (by decide) (by decide)).2.1,
    ((generate_donut_group_size_termination [alice] [] 0 none).2
      (by decide) (by decide)).2.2⟩

theorem truthyDonut_ne_empty {o : Option Donut} {d : Donut}
    (h : truthyDonut o = some d) : d ≠ ∅ := by
  cases o with
  | none => cases h
  | some x =>
    rw [truthyDonut] at h
    by_cases hx : x = ∅
    · rw [if_pos hx] at h
      cases h
    · rw [if_neg hx] at h
      cases h
      exact hx

theorem get_current_ne_empty {s : GroupState} {old : Donut}
    (h : get_current_donut s = some old) : old ≠ ∅ := by
  simp only [get_current_donut] at h
  cases hds : s.donut_state with
  | none => rw [hds] at h; cases h
  | some ds => rw [hds] at h; exact truthyDonut_ne_empty h

theorem set_current_donut_current (X : Donut) (s : GroupState) :
    (set_current_donut X s).current_donut = some X := rfl

theorem set_current_donut_last (X : Donut) (s : GroupState) :
    truthyDonut (set_current_donut X s).last_donut
      = (match get_current_donut s with
        | some old => some old
        | none => get_last_donut s) := by
  rcases hc : get_current_donut s with _ | old
  · simp only [set_current_donut, hc]
    cases hds : s.donut_state with
    | none => simp [hds, get_last_donut, truthyDonut]
    | some ds0 => simp [hds, get_last_donut]
  · simp only [set_current_donut, hc]
    have : old ≠ ∅ := get_current_ne_empty hc
    simp [truthyDonut, this]

/-- C7: a confirm with no proposed round takes the "No DONUT currently
proposed" branch and changes nothing: same state, no persistence write, no
invitation side effect. -/
theorem confirm_no_proposal (s : GroupState) (persistOk inviteOk : Bool)
    (hp : s.proposed = none) :
    confirm persistOk inviteOk s = ⟨.noProposal, s, [], []⟩ := by
  simp [confirm, hp]

/-- Witness for C7 on the empty room state. -/
theorem confirm_no_proposal_witness :
    (⟨none, none⟩ : GroupState).proposed = none ∧
      confirm true true ⟨none, none⟩
        = ⟨.noProposal, ⟨none, none⟩, [], []⟩ :=
  ⟨rfl, confirm_no_proposal ⟨none, none⟩ true true rfl⟩

/-- C8: when the persistence write of confirm fails, the handler aborts with
the persistence-error branch, nothing is written, no invitation is
dispatched, and the state (including the stored proposal) is unchanged; the
same confirm succeeds when retried with working persistence. -/
theorem confirm_persist_failure (s : GroupState) (p : Donut)
    (inviteOk : Bool) (hp : s.proposed = some p) (hne : p ≠ ∅) :
    confirm false inviteOk s = ⟨.persistError, s, [], []⟩ ∧
      (confirm true true s).result = .success := by
  constructor
  · simp [confirm, hp, hne]
  · simp [confirm, hp, hne]

/-- Witness for C8 on a room with a one-pair proposal. -/
theorem confirm_persist_failure_witness :
    ((⟨none, some {{alice}}⟩ : GroupState).proposed = some {{alice}}) ∧
      ({{alice}} : Donut) ≠ ∅ ∧
      (confirm false true ⟨none, some {{alice}}⟩
          = ⟨.persistError, ⟨none, some {{alice}}⟩, [], []⟩ ∧
        (confirm true true (⟨none, some {{alice}}⟩ : GroupState)).result
          = .success) :=
  ⟨rfl, by decide, confirm_persist_failure ⟨none, some {{alice}}⟩ {{alice}} true rfl (by decide)⟩

/-- C2 counterexample: from a room whose proposal is the single pair
`{alice}` donut, a confirm whose persistence write succeeds but whose
invitation side effects fail promotes the round (the current round becomes
the proposal) yet does NOT clear the proposed round, contradicting the claim
that every confirm that persists the promotion also clears the proposal. -/
theorem confirm_invite_failure_keeps_proposal :
    get_current_donut (confirm true false ⟨none, some {{alice}}⟩).state
        = some {{alice}} ∧
      (confirm true false ⟨none, some {{alice}}⟩).state.proposed
        = some {{alice}} ∧
      (confirm true false ⟨none, some {{alice}}⟩).state.proposed ≠ none := by
  decide

/-- C2 (amended): a confirm whose persistence write succeeds always promotes
the (nonempty) proposed round, but clears the proposal only when the
invitation side effects also succeed; on invitation failure the round stays
promoted and the proposal remains stored. -/
theorem confirm_clears_iff_invites_succeed (s : GroupState) (p : Donut)
    (inviteOk : Bool) (hp : s.proposed = some p) (hne : p ≠ ∅) :
    get_current_donut (confirm true inviteOk s).state = some p ∧
      (confirm true inviteOk s).state.proposed
        = (if inviteOk then none else some p) := by
  cases inviteOk <;>
    simp [confirm, hp, hne, get_current_donut, set_current_donut, truthyDonut]

/-- Witness for the amended C2 on a room with a one-pair proposal and
succeeding invitations. -/
theorem confirm_clears_iff_invites_succeed_witness :
    ((⟨none, some {{alice}}⟩ : GroupState).proposed = some {{alice}}) ∧
      ({{alice}} : Donut) ≠ ∅ ∧
      (get_current_donut (confirm true true ⟨none, some {{alice}}⟩).state
          = some {{alice}} ∧
        (confirm true true ⟨none, some {{alice}}⟩).state.proposed
          = (if true then none else some {{alice}})) :=
  ⟨rfl, by decide,
    confirm_clears_iff_invites_succeed ⟨none, some {{alice}}⟩ {{alice}} true rfl (by decide)⟩

/-- C4 counterexample: from a (persisted) state that stores a previous round
`{alice}` but no current round, proposing the nonempty round `{bob}` and
confirming with a successful persistence write promotes `{bob}` to current,
yet the previous round then reads as `{alice}` — not as the absent value
that the current round had immediately before the promotion.  (With an empty
proposed round the promotion does not even happen: see the truthiness test
in `confirm`.) -/
theorem confirm_promote_stale_previous :
    get_current_donut ⟨some ⟨some {{alice}}, none⟩, none⟩ = none ∧
      get_current_donut (confirm true true
          (set_proposed {{bob}} ⟨some ⟨some {{alice}}, none⟩, none⟩)).state
        = some {{bob}} ∧
      get_last_donut (confirm true true
          (set_proposed {{bob}} ⟨some ⟨some {{alice}}, none⟩, none⟩)).state
        = some {{alice}} ∧
      some ({{alice}} : Donut) ≠ none := by
  decide

/-- C4 (amended): for a nonempty proposed round `X` and a group state
satisfying the reachable-state invariant `StateInv` (a previous round is
visible only when a current round is), set-proposed followed by a confirm
whose persistence write succeeds makes `X` the current round and makes the
previous round exactly the current round from immediately before the
promotion, whether or not the invitation side effects succeed. -/
theorem confirm_promotes (s : GroupState) (X : Donut) (inviteOk : Bool)
    (hX : X ≠ ∅) (hinv : StateInv s) :
    get_current_donut (confirm true inviteOk (set_proposed X s)).state = some X ∧
      get_last_donut (confirm true inviteOk (set_proposed X s)).state
        = get_current_donut s := by
  have hstate : (confirm true inviteOk (set_proposed X s)).state.donut_state
      = some (set_current_donut X (set_proposed X s)) := by
    cases inviteOk <;> simp [confirm, set_proposed, hX]
  have hcur : get_current_donut (set_proposed X s) = get_current_donut s := rfl
  have hlast : get_last_donut (set_proposed X s) = get_last_donut s := rfl
  constructor
  · simp only [get_current_donut, hstate]
    show truthyDonut (some X) = some X
    simp [truthyDonut, hX]
  · simp only [get_last_donut, hstate]
    show truthyDonut (set_current_donut X (set_proposed X s)).last_donut
      = get_current_donut s
    rw [set_current_donut_last X (set_proposed X s), hcur, hlast]
    rcases hc : get_current_donut s with _ | old
    · simpa using hinv hc
    · rfl

/-- Witness for the amended C4 on a room whose current round is the pair
donut `{alice}` and whose proposal becomes `{bob}`. -/
theorem confirm_promotes_witness :
    ({{bob}} : Donut) ≠ ∅ ∧
      StateInv ⟨some ⟨none, some {{alice}}⟩, none⟩ ∧
      (get_current_donut (confirm true true
          (set_proposed {{bob}} ⟨some ⟨none, some {{alice}}⟩, none⟩)).state
          = some {{bob}} ∧
        get_last_donut (confirm true true
          (set_proposed {{bob}} ⟨some ⟨none, some {{alice}}⟩, none⟩)).state
          = get_current_donut ⟨some ⟨none, some {{alice}}⟩, none⟩) :=
  ⟨by decide, fun h => absurd h (by decide),
    confirm_promotes ⟨some ⟨none, some {{alice}}⟩, none⟩ {{bob}} true
      (by decide) (fun h => absurd h (by decide))⟩
